import Mathlib

/-!
Verification of the tweet-sentiment pipeline (`sentiment_app_no_live.py`).

The development shallowly embeds the transformation core of the program:

* `clean_tweet` (source lines 35-54): three regex substitutions followed by
  lower-casing and stripping, modelled character-exactly over `List Char`
  for ASCII inputs (the regexes `http\S+|www\S+|https\S+`, `\@\w+|\\#`,
  `[^a-zA-Z\s]` and Python's `str.lower`/`str.strip`).
* `apply_sentiment_analysis` (lines 58-83): delegates scoring to the
  external VADER library (not part of this repository) and labels the
  compound score with fixed thresholds (line 81).  The scorer is modelled
  from the spec (see `polarity_scores`).
* `load_and_process_data` (lines 87-117): schema check, per-row cleaning
  and scoring, and language-column resolution.
* `visualize_distribution` (lines 120-160): its aggregation core
  `data[column].value_counts().head(top_n)`; the matplotlib rendering is an
  excluded collaborator per the spec.

Scanning substitutions (`re.sub`-style) are implemented with an explicit
fuel argument equal to the input length so that every definition is
structurally recursive and hence evaluable by `decide`/`rfl`.
-/

/-- The character class Python's `re` module treats as `\s` (ASCII part):
space, tab, newline, carriage return, vertical tab, form feed.  The same
set backs `str.split()` and `str.strip()` for the ASCII inputs modelled
here. -/
def isPySpace (c : Char) : Bool :=
  c == ' ' || c == '\t' || c == '\n' || c == '\r' || c == '\x0b' || c == '\x0c'

/-- `\S` of the URL regex: any character that is not Python whitespace. -/
def nonsp (c : Char) : Bool := !isPySpace c

/-- ASCII `[a-zA-Z]`, the characters kept (alongside `\s`) by the third
substitution `[^a-zA-Z\s]` → `''` of `clean_tweet` (source line 52). -/
def isAsciiAlpha (c : Char) : Bool :=
  decide (65 ≤ c.toNat ∧ c.toNat ≤ 90) || decide (97 ≤ c.toNat ∧ c.toNat ≤ 122)

/-- ASCII `[a-z]`. -/
def isLowerAlpha (c : Char) : Bool := decide (97 ≤ c.toNat ∧ c.toNat ≤ 122)

/-- Word characters of the mention regex `\@\w+` (ASCII part of `\w`). -/
def isWordChar (c : Char) : Bool :=
  isAsciiAlpha c || decide (48 ≤ c.toNat ∧ c.toNat ≤ 57) || c == '_'

/-- A leftmost match of `http\S+|www\S+|https\S+` (source line 48) at the
head of the list: returns the remainder after the (greedy) match, or `none`
if no alternative matches here.  The `https\S+` alternative is dead code in
the Python regex: wherever it matches, `http\S+` already matched first at
the same position (the letter `s` is itself a `\S` character), so it needs
no separate case. -/
def urlRest (l : List Char) : Option (List Char) :=
  match l with
  | c1 :: c2 :: c3 :: c4 :: tl =>
    if c1 == 'h' && c2 == 't' && c3 == 't' && c4 == 'p' then
      match tl with
      | [] => none
      | d :: tl2 => if isPySpace d then none else some ((d :: tl2).dropWhile nonsp)
    else if c1 == 'w' && c2 == 'w' && c3 == 'w' then
      if isPySpace c4 then none else some ((c4 :: tl).dropWhile nonsp)
    else none
  | _ => none

/-- A leftmost match of `\@\w+|\\#` (source line 50) at the head of the
list: `@` followed by at least one word character (greedy run), or a literal
backslash followed by `#`.  Note the Python pattern is the raw string
`r'\@\w+|\\#'`, so the second alternative matches the two-character sequence
`\#`, not a bare `#`. -/
def mentionRest (l : List Char) : Option (List Char) :=
  match l with
  | '@' :: d :: tl => if isWordChar d then some ((d :: tl).dropWhile isWordChar) else none
  | '\\' :: '#' :: tl => some tl
  | _ => none

/-- One generic `re.sub(pattern, '', text)` scan: at each position try the
match given by `step`; on a match continue after it, otherwise emit the
character and move one position right.  `fuel` bounds the recursion depth;
`fuel ≥ l.length` makes it semantically irrelevant (`scanRemoveF_congr`). -/
def scanRemoveF (step : List Char → Option (List Char)) : Nat → List Char → List Char
  | 0, l => l
  | _ + 1, [] => []
  | fuel + 1, c :: rest =>
    match step (c :: rest) with
    | some r => scanRemoveF step fuel r
    | none => c :: scanRemoveF step fuel rest

/-- `text.str.replace(r"http\S+|www\S+|https\S+", '', regex=True)`. -/
def removeUrls (l : List Char) : List Char := scanRemoveF urlRest l.length l

/-- `text.str.replace(r'\@\w+|\\#', '', regex=True)`. -/
def removeMentions (l : List Char) : List Char := scanRemoveF mentionRest l.length l

/-- `text.str.replace(r"[^a-zA-Z\s]", '', regex=True)`. -/
def keepAlphaSpace (l : List Char) : List Char :=
  l.filter (fun c => isAsciiAlpha c || isPySpace c)

/-- Python `str.strip()`: remove leading and trailing whitespace. -/
def pyStrip (l : List Char) : List Char :=
  ((l.dropWhile isPySpace).reverse.dropWhile isPySpace).reverse

/-- The body of `clean_tweet` (source lines 46-54) on one element of the
series: URL removal, then mention/backslash-hash removal, then deletion of
every character outside `[a-zA-Z\s]`, then lower-casing and stripping. -/
def cleanChars (l : List Char) : List Char :=
  pyStrip ((keepAlphaSpace (removeMentions (removeUrls l))).map Char.toLower)

/-- `clean_tweet` on a single record.  The pandas version maps this over the
series; `.astype(str)` is the identity on the string-valued records modelled
here. -/
def clean_tweet (s : String) : String := String.mk (cleanChars s.data)

/-!
## Polarity scorer

`apply_sentiment_analysis` (source line 70-76) builds
`SentimentIntensityAnalyzer().polarity_scores(text)` for each cleaned text.
VADER is an external dependency, not code of this repository.
-/

/-- Modelled from the spec: the `PolarityScorer` "delegate[s] to a
lexicon-and-rule-based polarity algorithm (valence lexicon with heuristics
...) producing four scores" (spec 4.2); the engine used by the source is
VADER.  The lexicon is restricted to the entries relevant to the claims'
concrete inputs; every other token scores 0, exactly how the engine treats
out-of-lexicon tokens.  Omitting further entries can only change score
magnitudes on other inputs, never the structural properties proved here. -/
def vaderLexicon : List (String × ℚ) := [("love", mkRat 32 10), ("hate", mkRat (-27) 10)]

/-- Valence of one token: lexicon lookup, 0 when absent. -/
def valence (w : String) : ℚ :=
  match vaderLexicon.find? (fun p => p.1 == w) with
  | some p => p.2
  | none => 0

/-- Python `str.split()`: whitespace-delimited tokens, no empties.  (VADER
tokenization also strips surrounding punctuation from tokens, a no-op on
the cleaned texts the pipeline feeds it.) -/
def pyTokens (l : List Char) : List (List Char) :=
  (l.foldr
    (fun c ts =>
      if isPySpace c then [] :: ts
      else
        match ts with
        | [] => [[c]]
        | t :: ts2 => (c :: t) :: ts2)
    []).filter (fun t => !t.isEmpty)

/-- `math.fabs` on exact rationals (an explicit `if`, which the kernel
evaluates, unlike the lattice-theoretic `|·|`; `ratAbs_eq_abs` links the
two). -/
def ratAbs (q : ℚ) : ℚ := if q < 0 then -q else q

/-- Exact rational division, written so the kernel can evaluate it (the
field `/` on `ℚ` goes through the irreducible `Rat.inv`); `ratDiv_eq`
proves it equal to `/`. -/
def ratDiv (a b : ℚ) : ℚ := Rat.divInt (a.num * b.den) (a.den * b.num)

/-- VADER `_sift_sentiment_scores`: positive valences contribute `s + 1`. -/
def siftPos : List ℚ → ℚ
  | [] => 0
  | s :: r => (if 0 < s then s + 1 else 0) + siftPos r

/-- VADER `_sift_sentiment_scores`: negative valences contribute `s - 1`. -/
def siftNeg : List ℚ → ℚ
  | [] => 0
  | s :: r => (if s < 0 then s - 1 else 0) + siftNeg r

/-- VADER `_sift_sentiment_scores`: count of zero-valence tokens. -/
def neuCount : List ℚ → ℚ
  | [] => 0
  | s :: r => (if s = 0 then 1 else 0) + neuCount r

/-- The per-token valences of a text (one `ℚ` per whitespace token). -/
def sentimentsOf (s : String) : List ℚ :=
  (pyTokens s.data).map (fun t => valence (String.mk t))

/-- The normalizing total of VADER `score_valence`:
`pos_sum + math.fabs(neg_sum) + neu_count`. -/
def siftTotal (ss : List ℚ) : ℚ := siftPos ss + ratAbs (siftNeg ss) + neuCount ss

/-- The four-field result of `polarity_scores`.  `sumS` is the raw valence
sum; the reported compound score is its saturating normalization
`compoundR` (irrational in general, hence kept symbolic; see
`labelOfSum_eq_real`). -/
structure PolarityScores where
  neg : ℚ
  neu : ℚ
  pos : ℚ
  sumS : ℚ
  deriving DecidableEq, Repr

/-- Modelled from the spec (4.2) and VADER's `score_valence`: with no
sentiment-bearing tokens at all (empty token list) every field is 0.0;
otherwise the neg/neu/pos fractions are the sifted sums divided by their
total, and the compound score is the normalized valence sum.  The engine's
punctuation/capitalization/negation heuristics are inert on the pipeline's
cleaned inputs (lowercase letters and spaces only) and are omitted, as is
the display rounding to 3 decimals. -/
def polarity_scores (s : String) : PolarityScores :=
  if (sentimentsOf s).isEmpty then ⟨0, 0, 0, 0⟩
  else
    ⟨ratAbs (ratDiv (siftNeg (sentimentsOf s)) (siftTotal (sentimentsOf s))),
      ratAbs (ratDiv (neuCount (sentimentsOf s)) (siftTotal (sentimentsOf s))),
      ratAbs (ratDiv (siftPos (sentimentsOf s)) (siftTotal (sentimentsOf s))),
      (sentimentsOf s).sum⟩

/-- VADER `normalize`: the saturating transform `s / sqrt(s² + 15)` taking
the raw valence sum into `(-1, 1)` (its `±1` clamping is unreachable). -/
noncomputable def normalizeR (s : ℚ) : ℝ := (s : ℝ) / Real.sqrt ((s : ℝ) ^ 2 + 15)

/-- The compound score of a scorer result. -/
noncomputable def compoundR (ps : PolarityScores) : ℝ := normalizeR ps.sumS

/-- The labeling rule of source line 81,
`'positive' if x > 0.05 else 'negative' if x < -0.05 else 'neutral'`,
as a function of the compound score. -/
def sentiment_label (x : ℚ) : String :=
  if x > 0.05 then "positive" else if x < -0.05 then "negative" else "neutral"

/-- Source line 81 applied to a real-valued compound score. -/
noncomputable def sentiment_labelR (x : ℝ) : String :=
  if x > 0.05 then "positive" else if x < -0.05 then "negative" else "neutral"

/-- The label of a record as a decidable function of the raw valence sum:
`s / sqrt(s²+15) > 1/20` iff `0 < s` and `15 < 399·s²` (and symmetrically
for the negative threshold); proved equivalent to classifying the real
compound score in `labelOfSum_eq_real`. -/
def labelOfSum (s : ℚ) : String :=
  if 0 < s ∧ 15 < 399 * (s * s) then "positive"
  else if s < 0 ∧ 15 < 399 * (s * s) then "negative"
  else "neutral"

/-!
## Dataset processor (`load_and_process_data`, source lines 87-117)
-/

/-- The parsed CSV as far as the pipeline inspects it: the required
`content` column and the optional `lang` column (`none` = column absent;
a `none` cell = a null/NaN value in a present column).  Other columns pass
through unmodified and are not modelled. -/
structure RawDF where
  content : Option (List String)
  lang : Option (List (Option String))
  deriving DecidableEq

/-- The enriched output record set: original and cleaned contents, the
per-record scorer results (columns `sent_neg`/`sent_neu`/`sent_pos` and the
compound source `sumS`), labels, and the resolved `language` column. -/
structure ProcessedDF where
  content : List String
  cleaned_content : List String
  scores : List PolarityScores
  sentiment_label : List String
  language : List (Option String)
  deriving DecidableEq

/-- `load_and_process_data` (source lines 98-114): return `None` when the
`content` column is absent (before any per-row work — the error branch
touches no row); otherwise clean every content, score every cleaned
content, label every compound score, and resolve `language`: the `lang`
column is renamed unchanged when present (line 110 — null cells stay null),
else the whole column defaults to `"unknown"` (line 112). -/
def load_and_process_data (df : RawDF) : Option ProcessedDF :=
  match df.content with
  | none => none
  | some contents =>
    let cleaned := contents.map clean_tweet
    let scores := cleaned.map polarity_scores
    some
      { content := contents
        cleaned_content := cleaned
        scores := scores
        sentiment_label := scores.map (fun ps => labelOfSum ps.sumS)
        language :=
          match df.lang with
          | some col => col
          | none => contents.map (fun _ => some "unknown") }

/-!
## Categorical aggregation (`visualize_distribution`, source lines 120-160)

The aggregation core is `counts = data[column].value_counts().head(top_n)`
(line 136).  pandas `value_counts` counts the distinct non-null values of
the column, sorted by count descending; `head` keeps the first `top_n`
rows.  Looking up a column absent from the frame (`data[column]`) raises a
`KeyError`.  The matplotlib figure construction around the counts is the
excluded rendering collaborator.
-/

/-- One counting step: increment the entry for `v`, or append `(v, 1)`.
Keeps first-encounter order of keys. -/
def bump (v : String) : List (String × Nat) → List (String × Nat)
  | [] => [(v, 1)]
  | (w, k) :: rest => if w = v then (w, k + 1) :: rest else (w, k) :: bump v rest

/-- Frequency table of a list of values, keys in first-encounter order. -/
def tallyGo (acc : List (String × Nat)) : List String → List (String × Nat)
  | [] => acc
  | v :: rest => tallyGo (bump v acc) rest

def tally (l : List String) : List (String × Nat) := tallyGo [] l

/-- Insert into a count-descending list, after entries with a strictly
larger or equal count (a stable descending insertion). -/
def insertDesc (p : String × Nat) : List (String × Nat) → List (String × Nat)
  | [] => [p]
  | q :: rest => if p.2 < q.2 then q :: insertDesc p rest else p :: q :: rest

/-- Stable insertion sort by count, descending. -/
def sortDesc : List (String × Nat) → List (String × Nat)
  | [] => []
  | p :: rest => insertDesc p (sortDesc rest)

/-- pandas `Series.value_counts()` over a column with optional (nullable)
cells: counts of the distinct non-null values, count-descending. -/
def value_counts (col : List (Option String)) : List (String × Nat) :=
  sortDesc (tally (col.filterMap id))

/-- A record set for aggregation purposes: named columns of nullable
cells. -/
def getColumn (cols : List (String × List (Option String))) (c : String) :
    Option (List (Option String)) :=
  (cols.find? (fun p => p.1 == c)).map (fun p => p.2)

/-- The data access and aggregation performed by `visualize_distribution`
(source line 136): `data[column].value_counts().head(top_n)`.  A missing
column makes `data[column]` raise `KeyError`; otherwise the truncated
frequency table is handed to the (excluded) plotting code, which renders a
placeholder when it is empty (lines 140-156). -/
def visualize_distribution (cols : List (String × List (Option String)))
    (column : String) (top_n : Nat) : Except String (List (String × Nat)) :=
  match getColumn cols column with
  | none => Except.error "KeyError"
  | some col => Except.ok ((value_counts col).take top_n)

/-- Total of the counts of a frequency table. -/
def sumCounts (r : List (String × Nat)) : Nat := (r.map (fun p => p.2)).sum

/-!
## Auxiliary predicates and concrete data
-/

/-- No position of `l` begins a match of the URL regex (`http`/`www`
followed by a non-space character).  On such strings the URL substitution
is the identity (`removeUrls_eq_self`). -/
def urlSeedFree : List Char → Bool
  | [] => true
  | c :: rest => (urlRest (c :: rest)).isNone && urlSeedFree rest

/-- `pat` occurs as a contiguous substring of `l`. -/
def hasSubstr (pat : List Char) : List Char → Bool
  | [] => decide (pat = [])
  | c :: rest => pat.isPrefixOf (c :: rest) || hasSubstr pat rest

/-- A whitespace-free token that the URL regex matches in full: it starts
with `http` or `www` followed by at least one further non-space character
(e.g. `http://x.co` or `www.a.b`). -/
def isUrlToken (t : List Char) : Bool := t.all nonsp && (urlRest t).isSome

/-- The three-record input batch of the spec's end-to-end scenario:
`content` as given, `lang` present with a null third cell. -/
def scenarioDF : RawDF :=
  { content := some ["I love sunny days!! http://x.co @joe", "I hate this #traffic", ""]
    lang := some [some "en", some "es", none] }

/-- The fully evaluated output of the pipeline on a one-record batch whose
content cleans to the empty string (used to witness the empty-content
claim). -/
def emptyRowProcessed : ProcessedDF :=
  { content := [""]
    cleaned_content := [""]
    scores := [⟨0, 0, 0, 0⟩]
    sentiment_label := ["neutral"]
    language := [some "unknown"] }

/-- The fully evaluated output of the pipeline on a one-record batch with a
present `lang` column (used to witness the language-resolution claim). -/
def langRowProcessed : ProcessedDF :=
  { content := ["hi"]
    cleaned_content := ["hi"]
    scores := [⟨0, 1, 0, 0⟩]
    sentiment_label := ["neutral"]
    language := [some "en"] }

/-!
## Basic facts about the scanning substitutions
-/

theorem urlRest_length {l r : List Char} (h : urlRest l = some r) : r.length < l.length := by
  unfold urlRest at h
  split at h
  next c1 c2 c3 c4 tl =>
    split at h
    · split at h
      · exact absurd h (by simp)
      next d tl2 =>
        split at h
        · exact absurd h (by simp)
        · have hle := (List.dropWhile_sublist (l := d :: tl2) nonsp).length_le
          obtain rfl : List.dropWhile nonsp (d :: tl2) = r := by injection h
          simp only [List.length_cons] at hle ⊢
          omega
    · split at h
      · split at h
        · exact absurd h (by simp)
        · have hle := (List.dropWhile_sublist (l := c4 :: tl) nonsp).length_le
          obtain rfl : List.dropWhile nonsp (c4 :: tl) = r := by injection h
          simp only [List.length_cons] at hle ⊢
          omega
      · exact absurd h (by simp)
  next => exact absurd h (by simp)

theorem mentionRest_length {l r : List Char} (h : mentionRest l = some r) : r.length < l.length := by
  unfold mentionRest at h
  split at h
  next d tl =>
    split at h
    · have hle := (List.dropWhile_sublist (l := d :: tl) isWordChar).length_le
      obtain rfl : List.dropWhile isWordChar (d :: tl) = r := by injection h
      simp only [List.length_cons] at hle ⊢
      omega
    · exact absurd h (by simp)
  next tl =>
    obtain rfl : tl = r := by injection h
    simp only [List.length_cons]
    omega
  next => exact absurd h (by simp)

/-- The fuel argument of `scanRemoveF` is irrelevant once it reaches the
input length. -/
theorem scanRemoveF_congr (step : List Char → Option (List Char))
    (hstep : ∀ l r, step l = some r → r.length < l.length) :
    ∀ n m l, l.length ≤ n → l.length ≤ m → scanRemoveF step n l = scanRemoveF step m l := by
  intro n
  induction n with
  | zero =>
    intro m l hn _
    have : l = [] := List.eq_nil_of_length_eq_zero (Nat.le_zero.1 hn)
    subst this
    cases m <;> simp [scanRemoveF]
  | succ n ih =>
    intro m l hn hm
    match l with
    | [] => cases m <;> simp [scanRemoveF]
    | c :: rest =>
      match m with
      | 0 => exact absurd hm (by simp)
      | m + 1 =>
        simp only [scanRemoveF]
        cases hstep2 : step (c :: rest) with
        | some r =>
          have hr := hstep _ _ hstep2
          simp only [List.length_cons] at hn hm hr
          exact ih m r (by omega) (by omega)
        | none =>
          simp only [List.length_cons] at hn hm
          rw [ih m rest (by omega) (by omega)]

theorem removeUrls_nil : removeUrls [] = [] := rfl

theorem removeUrls_cons_some {c : Char} {rest r : List Char} (h : urlRest (c :: rest) = some r) :
    removeUrls (c :: rest) = removeUrls r := by
  have hr : r.length ≤ rest.length := by
    have := urlRest_length h
    simp only [List.length_cons] at this
    omega
  unfold removeUrls
  rw [show scanRemoveF urlRest (c :: rest).length (c :: rest)
      = scanRemoveF urlRest (rest.length + 1) (c :: rest) from rfl]
  simp only [scanRemoveF, h]
  exact scanRemoveF_congr urlRest (fun _ _ => urlRest_length) rest.length r.length r hr
    (Nat.le_refl _)

theorem removeUrls_cons_none {c : Char} {rest : List Char} (h : urlRest (c :: rest) = none) :
    removeUrls (c :: rest) = c :: removeUrls rest := by
  unfold removeUrls
  rw [show scanRemoveF urlRest (c :: rest).length (c :: rest)
      = scanRemoveF urlRest (rest.length + 1) (c :: rest) from rfl]
  simp only [scanRemoveF, h]

theorem removeMentions_nil : removeMentions [] = [] := rfl

theorem removeMentions_cons_some {c : Char} {rest r : List Char}
    (h : mentionRest (c :: rest) = some r) :
    removeMentions (c :: rest) = removeMentions r := by
  have hr : r.length ≤ rest.length := by
    have := mentionRest_length h
    simp only [List.length_cons] at this
    omega
  unfold removeMentions
  rw [show scanRemoveF mentionRest (c :: rest).length (c :: rest)
      = scanRemoveF mentionRest (rest.length + 1) (c :: rest) from rfl]
  simp only [scanRemoveF, h]
  exact scanRemoveF_congr mentionRest (fun _ _ => mentionRest_length) rest.length r.length r hr
    (Nat.le_refl _)

theorem removeMentions_cons_none {c : Char} {rest : List Char}
    (h : mentionRest (c :: rest) = none) :
    removeMentions (c :: rest) = c :: removeMentions rest := by
  unfold removeMentions
  rw [show scanRemoveF mentionRest (c :: rest).length (c :: rest)
      = scanRemoveF mentionRest (rest.length + 1) (c :: rest) from rfl]
  simp only [scanRemoveF, h]

/-!
## Character-class facts and idempotence machinery
-/

theorem ratDiv_eq (a b : ℚ) : ratDiv a b = a / b := (Rat.div_def' a b).symm

theorem ratAbs_eq_abs (q : ℚ) : ratAbs q = |q| := by
  unfold ratAbs
  split
  · exact (abs_of_neg (by assumption)).symm
  · exact (abs_of_nonneg (by linarith [not_lt.1 (by assumption)])).symm

theorem char_toNat_ofNat {n : Nat} (h : n < 55296) : (Char.ofNat n).toNat = n := by
  unfold Char.ofNat
  rw [dif_pos (Or.inl h)]
  rfl

theorem toLower_class {c : Char} (h : (isAsciiAlpha c || isPySpace c) = true) :
    (isLowerAlpha (Char.toLower c) || isPySpace (Char.toLower c)) = true := by
  rw [show Char.toLower c
      = if c.toNat ≥ 65 ∧ c.toNat ≤ 90 then Char.ofNat (c.toNat + 32) else c from rfl]
  split
  next hc =>
    have hv : c.toNat + 32 < 55296 := by omega
    simp only [isLowerAlpha, Bool.or_eq_true, decide_eq_true_eq]
    left
    rw [char_toNat_ofNat hv]
    omega
  next hc =>
    simp only [isAsciiAlpha, isLowerAlpha, Bool.or_eq_true, decide_eq_true_eq] at h ⊢
    rcases h with (h | h) | h
    · omega
    · exact Or.inl h
    · exact Or.inr h

theorem toLower_eq_self {c : Char} (h : (isLowerAlpha c || isPySpace c) = true) :
    Char.toLower c = c := by
  rw [show Char.toLower c
      = if c.toNat ≥ 65 ∧ c.toNat ≤ 90 then Char.ofNat (c.toNat + 32) else c from rfl]
  split
  next hc =>
    exfalso
    simp only [isLowerAlpha, isPySpace, Bool.or_eq_true, decide_eq_true_eq, beq_iff_eq] at h
    rcases h with h | h
    · omega
    · rcases h with ((((rfl | rfl) | rfl) | rfl) | rfl) | rfl <;> exact absurd hc (by decide)
  next => rfl

theorem cleanChars_class {l : List Char} :
    ∀ c ∈ cleanChars l, (isLowerAlpha c || isPySpace c) = true := by
  intro c hc
  unfold cleanChars pyStrip at hc
  have h1 : c ∈ (keepAlphaSpace (removeMentions (removeUrls l))).map Char.toLower := by
    have h2 := List.mem_reverse.1 hc
    have h3 := (List.dropWhile_sublist isPySpace).subset h2
    have h4 := List.mem_reverse.1 h3
    exact (List.dropWhile_sublist isPySpace).subset h4
  obtain ⟨d, hd, rfl⟩ := List.mem_map.1 h1
  exact toLower_class (List.mem_filter.1 hd).2

theorem dropWhile_eq_self_of_head {α : Type} {p : α → Bool} {l : List α}
    (h : ∀ c t, l = c :: t → p c = false) : l.dropWhile p = l := by
  cases l with
  | nil => rfl
  | cons c t => exact List.dropWhile_cons_of_neg (by simp [h c t rfl])

theorem pyStrip_idem (l : List Char) : pyStrip (pyStrip l) = pyStrip l := by
  unfold pyStrip
  have hw_head : ∀ c t, (l.dropWhile isPySpace).reverse.dropWhile isPySpace = c :: t →
      isPySpace c = false := by
    intro c t hct
    have h0 := List.head?_dropWhile_not isPySpace (l.dropWhile isPySpace).reverse
    rw [hct] at h0
    simpa using h0
  have hy_head : ∀ c t,
      ((l.dropWhile isPySpace).reverse.dropWhile isPySpace).reverse = c :: t →
      isPySpace c = false := by
    intro c t hct
    have h1 : ((l.dropWhile isPySpace).reverse.dropWhile isPySpace).reverse.head? = some c := by
      rw [hct]; rfl
    rw [List.head?_reverse] at h1
    obtain ⟨t2, ht2⟩ := List.dropWhile_suffix (l := (l.dropWhile isPySpace).reverse) isPySpace
    have h2 : (l.dropWhile isPySpace).reverse.getLast? = some c := by
      rw [← ht2, List.getLast?_append, h1]
      rfl
    rw [List.getLast?_reverse] at h2
    have h0 := List.head?_dropWhile_not isPySpace l
    rw [h2] at h0
    simpa using h0
  rw [dropWhile_eq_self_of_head hy_head, List.reverse_reverse,
    dropWhile_eq_self_of_head hw_head]

theorem removeUrls_eq_self {l : List Char} (h : urlSeedFree l = true) : removeUrls l = l := by
  induction l with
  | nil => rfl
  | cons c rest ih =>
    unfold urlSeedFree at h
    simp only [Bool.and_eq_true, Option.isNone_iff_eq_none] at h
    rw [removeUrls_cons_none h.1, ih h.2]

theorem removeMentions_eq_self {l : List Char}
    (h : ∀ c ∈ l, (isLowerAlpha c || isPySpace c) = true) : removeMentions l = l := by
  induction l with
  | nil => rfl
  | cons c rest ih =>
    have hc := h c (List.mem_cons_self c rest)
    have hAt : c ≠ '@' := by
      intro h2
      subst h2
      exact absurd hc (by decide)
    have hBs : c ≠ '\\' := by
      intro h2
      subst h2
      exact absurd hc (by decide)
    have hmr : mentionRest (c :: rest) = none := by
      unfold mentionRest
      split
      next d tl heq =>
        injection heq with h1 h2
        exact absurd h1 hAt
      next tl heq =>
        injection heq with h1 h2
        exact absurd h1 hBs
      next => rfl
    rw [removeMentions_cons_none hmr, ih (fun d hd => h d (List.mem_cons_of_mem c hd))]

theorem keepAlphaSpace_eq_self {l : List Char}
    (h : ∀ c ∈ l, (isLowerAlpha c || isPySpace c) = true) : keepAlphaSpace l = l := by
  unfold keepAlphaSpace
  rw [List.filter_eq_self]
  intro c hc
  have := h c hc
  simp only [isLowerAlpha, isAsciiAlpha, Bool.or_eq_true, decide_eq_true_eq] at this ⊢
  rcases this with h1 | h1
  · exact Or.inl (Or.inr h1)
  · exact Or.inr h1

theorem map_toLower_eq_self {l : List Char}
    (h : ∀ c ∈ l, (isLowerAlpha c || isPySpace c) = true) : l.map Char.toLower = l := by
  induction l with
  | nil => rfl
  | cons c rest ih =>
    simp only [List.map_cons]
    rw [toLower_eq_self (h c (List.mem_cons_self c rest)),
      ih (fun d hd => h d (List.mem_cons_of_mem c hd))]

/-!
## Claims C2, C3, C7, C4, C1, C10
-/

theorem cleanChars_fixed {l : List Char} (h : urlSeedFree (cleanChars l) = true) :
    cleanChars (cleanChars l) = cleanChars l := by
  have hclass := cleanChars_class (l := l)
  rw [show cleanChars (cleanChars l)
      = pyStrip ((keepAlphaSpace (removeMentions (removeUrls (cleanChars l)))).map Char.toLower)
      from rfl]
  rw [removeUrls_eq_self h, removeMentions_eq_self hclass, keepAlphaSpace_eq_self hclass,
    map_toLower_eq_self hclass]
  show pyStrip (cleanChars l) = cleanChars l
  unfold cleanChars
  exact pyStrip_idem _

/-- C2 (counterexample): normalization is not idempotent.  `clean_tweet`
lower-cases `"HTTPX"` to `"httpx"` without touching it otherwise (the URL
regex is case-sensitive), but cleaning that output again deletes everything,
because `httpx` now matches `http\S+`. -/
theorem C2_counterexample : clean_tweet (clean_tweet "HTTPX") ≠ clean_tweet "HTTPX" := by
  decide

/-- C2 (amended): `clean_tweet` is idempotent at every input string whose
cleaned output contains no occurrence of `http` or `www` followed by a
non-space character (no position where the URL regex can match again); on
such outputs every cleaning stage is the identity.  Already-cleaned strings
violating that side condition exist (see the counterexample), so the
unrestricted idempotence claim fails. -/
theorem C2_clean_tweet_idempotent (s : String)
    (h : urlSeedFree (cleanChars s.data) = true) :
    clean_tweet (clean_tweet s) = clean_tweet s :=
  congrArg String.mk (cleanChars_fixed h)

theorem C2_witness :
    urlSeedFree (cleanChars "Hello @joe http://a.b!!".data) = true ∧
    clean_tweet (clean_tweet "Hello @joe http://a.b!!") = clean_tweet "Hello @joe http://a.b!!" :=
  ⟨by decide, C2_clean_tweet_idempotent "Hello @joe http://a.b!!" (by decide)⟩

/-- C3: the classifier maps a compound score to a label by the fixed strict
thresholds of source line 81: above 0.05 is positive, below -0.05 is
negative, everything in between (both boundaries included) is neutral; in
particular 0.05 and -0.05 classify as neutral while 0.0501 and -0.0501
classify as positive resp. negative. -/
theorem C3_classifier_thresholds :
    (∀ x : ℚ, 0.05 < x → sentiment_label x = "positive") ∧
    (∀ x : ℚ, x < -0.05 → sentiment_label x = "negative") ∧
    (∀ x : ℚ, -0.05 ≤ x → x ≤ 0.05 → sentiment_label x = "neutral") ∧
    sentiment_label 0.05 = "neutral" ∧ sentiment_label 0.0501 = "positive" ∧
    sentiment_label (-0.05) = "neutral" ∧ sentiment_label (-0.0501) = "negative" := by
  have hpos : ∀ x : ℚ, 0.05 < x → sentiment_label x = "positive" := by
    intro x hx
    unfold sentiment_label
    rw [if_pos hx]
  have hneg : ∀ x : ℚ, x < -0.05 → sentiment_label x = "negative" := by
    intro x hx
    unfold sentiment_label
    rw [if_neg (by linarith), if_pos hx]
  have hneu : ∀ x : ℚ, -0.05 ≤ x → x ≤ 0.05 → sentiment_label x = "neutral" := by
    intro x h1 h2
    unfold sentiment_label
    rw [if_neg (by linarith), if_neg (by linarith)]
  exact ⟨hpos, hneg, hneu, hneu _ (by norm_num) (by norm_num), hpos _ (by norm_num),
    hneu _ (by norm_num) (by norm_num), hneg _ (by norm_num)⟩

theorem C3_witness : sentiment_label 1 = "positive" :=
  C3_classifier_thresholds.1 1 (by norm_num)

/-- C7: when the required `content` column is absent, the processor fails
immediately (returns the error value `None`, source lines 101-103) for the
whole batch: no cleaning, scoring or labeling is reached, whatever the
other columns hold. -/
theorem C7_missing_content (df : RawDF) (h : df.content = none) :
    load_and_process_data df = none := by
  unfold load_and_process_data
  rw [h]

theorem C7_witness : load_and_process_data ⟨none, some [some "en"]⟩ = none :=
  C7_missing_content ⟨none, some [some "en"]⟩ rfl

/-- C4 (counterexample): with a `lang` column present, a null per-record
cell is NOT defaulted to "unknown": the column is renamed unchanged
(source line 110), so the second record's language stays null. -/
theorem C4_counterexample :
    (load_and_process_data ⟨some ["a", "b"], some [some "en", none]⟩).map ProcessedDF.language
      = some [some "en", none] ∧ (none : Option String) ≠ some "unknown" := by
  constructor
  · with_unfolding_all decide
  · decide

/-- C4 (amended): the resolved `language` column equals the provided `lang`
column verbatim whenever that column is present (null cells included), and
every record's language is the literal "unknown" exactly when the `lang`
column is absent from the record set (the default is per-column, source
lines 109-112, not per-record). -/
theorem C4_language_resolution (df : RawDF) (P : ProcessedDF)
    (h : load_and_process_data df = some P) :
    (∀ col, df.lang = some col → P.language = col) ∧
    (df.lang = none → ∀ x ∈ P.language, x = some "unknown") := by
  unfold load_and_process_data at h
  cases hdf : df.content with
  | none => rw [hdf] at h; exact absurd h (by simp)
  | some contents =>
    rw [hdf] at h
    simp only [Option.some.injEq] at h
    subst h
    constructor
    · intro col hcol
      simp only [hcol]
    · intro hnone
      simp only [hnone]
      intro x hx
      obtain ⟨c, _, rfl⟩ := List.mem_map.1 hx
      rfl

theorem C4_witness : langRowProcessed.language = [some "en"] :=
  (C4_language_resolution ⟨some ["hi"], some [some "en"]⟩ langRowProcessed
    (by with_unfolding_all decide)).1 [some "en"] rfl

/-- C1 (counterexample): on the end-to-end scenario batch the pipeline does
NOT produce the normalized contents claimed by the spec: the second record
cleans to "i hate this traffic" (only the `#` marker is dropped, by the
`[^a-zA-Z\s]` substitution; the hashtag word survives), not "i hate this". -/
theorem C1_counterexample :
    (load_and_process_data scenarioDF).map ProcessedDF.cleaned_content
      ≠ some ["i love sunny days", "i hate this", ""] := by
  with_unfolding_all decide

/-- C1 (amended): on the scenario batch the pipeline produces the
normalized contents ["i love sunny days", "i hate this traffic", ""] and
the sentiment labels ["positive", "negative", "neutral"]. -/
theorem C1_scenario :
    (load_and_process_data scenarioDF).map ProcessedDF.cleaned_content
      = some ["i love sunny days", "i hate this traffic", ""] ∧
    (load_and_process_data scenarioDF).map ProcessedDF.sentiment_label
      = some ["positive", "negative", "neutral"] := by
  constructor
  · with_unfolding_all decide
  · with_unfolding_all decide

/-- C10: every record whose cleaned content is the empty string is labeled
"neutral": the empty string reaches the scorer unchanged, the scorer's
empty-token branch yields all-zero scores, the compound score is exactly 0,
and the threshold rule maps 0 to "neutral". -/
theorem C10_empty_cleaned_neutral (df : RawDF) (P : ProcessedDF) (i : Nat)
    (h : load_and_process_data df = some P) (hc : P.cleaned_content[i]? = some "") :
    P.sentiment_label[i]? = some "neutral" ∧
    ∀ ps, P.scores[i]? = some ps → compoundR ps = 0 := by
  unfold load_and_process_data at h
  cases hdf : df.content with
  | none => rw [hdf] at h; exact absurd h (by simp)
  | some contents =>
    rw [hdf] at h
    simp only [Option.some.injEq] at h
    subst h
    simp only at hc
    have hscore : ((contents.map clean_tweet).map polarity_scores)[i]?
        = some (polarity_scores "") := by
      rw [List.getElem?_map, hc]
      rfl
    constructor
    · show (((contents.map clean_tweet).map polarity_scores).map
        (fun ps => labelOfSum ps.sumS))[i]? = some "neutral"
      rw [List.getElem?_map, hscore]
      rfl
    · intro ps hps
      rw [hscore] at hps
      obtain rfl : polarity_scores "" = ps := by injection hps
      show compoundR ⟨0, 0, 0, 0⟩ = 0
      unfold compoundR normalizeR
      norm_num

theorem C10_witness :
    emptyRowProcessed.sentiment_label[0]? = some "neutral" ∧
    ∀ ps, emptyRowProcessed.scores[0]? = some ps → compoundR ps = 0 :=
  C10_empty_cleaned_neutral ⟨some [""], none⟩ emptyRowProcessed 0
    (by with_unfolding_all decide) rfl

/-!
## Claim C5: score structure
-/

theorem siftPos_nonneg (ss : List ℚ) : 0 ≤ siftPos ss := by
  induction ss with
  | nil => simp [siftPos]
  | cons s r ih =>
    unfold siftPos
    split
    · linarith
    · linarith

theorem siftNeg_nonpos (ss : List ℚ) : siftNeg ss ≤ 0 := by
  induction ss with
  | nil => simp [siftNeg]
  | cons s r ih =>
    unfold siftNeg
    split
    · linarith
    · linarith

theorem neuCount_nonneg (ss : List ℚ) : 0 ≤ neuCount ss := by
  induction ss with
  | nil => simp [neuCount]
  | cons s r ih =>
    unfold neuCount
    split
    · linarith
    · linarith

theorem siftTotal_ge_one (ss : List ℚ) (h : ss ≠ []) : 1 ≤ siftTotal ss := by
  unfold siftTotal
  rw [ratAbs_eq_abs, abs_of_nonpos (siftNeg_nonpos ss)]
  induction ss with
  | nil => exact absurd rfl h
  | cons s r ih =>
    unfold siftPos siftNeg neuCount
    have h1 : 0 ≤ siftPos r - siftNeg r + neuCount r := by
      have := siftPos_nonneg r
      have := siftNeg_nonpos r
      have := neuCount_nonneg r
      linarith
    rcases lt_trichotomy s 0 with hs | hs | hs
    · rw [if_neg (by linarith), if_pos hs, if_neg (by linarith)]
      linarith
    · subst hs
      rw [if_neg (by linarith), if_neg (by linarith), if_pos rfl]
      linarith
    · rw [if_pos hs, if_neg (by linarith), if_neg (by linarith)]
      linarith

/-- C5 (counterexample): scoring the empty string returns all-zero
positive/neutral/negative fractions, whose sum 0 is not within 1e-6 of
1.0 — the universally quantified sum-to-one part of the claim fails at the
empty string (VADER's empty-token branch). -/
theorem C5_counterexample :
    (polarity_scores "").pos + (polarity_scores "").neu + (polarity_scores "").neg = 0 ∧
    ¬ |(polarity_scores "").pos + (polarity_scores "").neu + (polarity_scores "").neg - 1|
        ≤ 1 / 1000000 := by
  have h : polarity_scores "" = ⟨0, 0, 0, 0⟩ := rfl
  rw [h]
  norm_num

/-- C5 (amended): scoring the empty string yields a compound score of
exactly 0.0 (and all-zero fractions); for every input with at least one
whitespace token the positive, neutral and negative fractions sum to
exactly 1.0 (hence within any tolerance).  The original claim's "for every
input string" fails only at inputs with no tokens, where the sum is 0. -/
theorem C5_scorer_properties :
    compoundR (polarity_scores "") = 0 ∧
    (∀ s : String, pyTokens s.data ≠ [] →
      (polarity_scores s).pos + (polarity_scores s).neu + (polarity_scores s).neg = 1) := by
  constructor
  · show compoundR ⟨0, 0, 0, 0⟩ = 0
    unfold compoundR normalizeR
    norm_num
  · intro s h
    have hne : sentimentsOf s ≠ [] := by
      unfold sentimentsOf
      intro h2
      exact h (List.map_eq_nil_iff.1 h2)
    have hss : (sentimentsOf s).isEmpty = false := by
      cases hp : sentimentsOf s with
      | nil => exact absurd hp hne
      | cons a b => rfl
    unfold polarity_scores
    rw [if_neg (by simp [hss])]
    have hp := siftPos_nonneg (sentimentsOf s)
    have hn := siftNeg_nonpos (sentimentsOf s)
    have hu := neuCount_nonneg (sentimentsOf s)
    have ht : 1 ≤ siftTotal (sentimentsOf s) := siftTotal_ge_one _ hne
    have htpos : (0 : ℚ) < siftTotal (sentimentsOf s) := by linarith
    simp only [ratDiv_eq, ratAbs_eq_abs]
    rw [abs_of_nonneg (div_nonneg hp htpos.le), abs_of_nonneg (div_nonneg hu htpos.le),
      abs_of_nonpos (div_nonpos_of_nonpos_of_nonneg hn htpos.le)]
    have hnum : siftPos (sentimentsOf s) + neuCount (sentimentsOf s) - siftNeg (sentimentsOf s)
        = siftTotal (sentimentsOf s) := by
      unfold siftTotal
      rw [ratAbs_eq_abs, abs_of_nonpos hn]
      ring
    field_simp
    linarith [hnum]

theorem C5_witness :
    (polarity_scores "love").pos + (polarity_scores "love").neu + (polarity_scores "love").neg
      = 1 :=
  C5_scorer_properties.2 "love" (by decide)

/-!
## The decidable label agrees with classifying the real compound score
-/

theorem normalizeR_gt_iff (s : ℚ) :
    (1 / 20 : ℝ) < normalizeR s ↔ 0 < s ∧ 15 < 399 * (s * s) := by
  unfold normalizeR
  have hpos : (0 : ℝ) < (s : ℝ) ^ 2 + 15 := by positivity
  have hsq : (0 : ℝ) < Real.sqrt ((s : ℝ) ^ 2 + 15) := Real.sqrt_pos.2 hpos
  have hsqeq : Real.sqrt ((s : ℝ) ^ 2 + 15) ^ 2 = (s : ℝ) ^ 2 + 15 := Real.sq_sqrt hpos.le
  rw [lt_div_iff₀ hsq]
  constructor
  · intro h
    have hs : (0 : ℝ) < (s : ℝ) := by nlinarith
    refine ⟨by exact_mod_cast hs, ?_⟩
    have h3 : (15 : ℝ) < 399 * ((s : ℝ) * (s : ℝ)) := by nlinarith
    exact_mod_cast h3
  · rintro ⟨h1, h2⟩
    have h1R : (0 : ℝ) < (s : ℝ) := by exact_mod_cast h1
    have h2R : (15 : ℝ) < 399 * ((s : ℝ) * (s : ℝ)) := by exact_mod_cast h2
    have h3 : Real.sqrt ((s : ℝ) ^ 2 + 15) < 20 * s := by
      rw [Real.sqrt_lt' (by linarith)]
      nlinarith
    linarith

theorem normalizeR_neg (s : ℚ) : normalizeR (-s) = -normalizeR s := by
  unfold normalizeR
  push_cast
  rw [neg_sq]
  ring

/-- Classifying the real compound score `s / sqrt(s² + 15)` with the
source's thresholds gives exactly the decidable `labelOfSum` used in the
pipeline model. -/
theorem labelOfSum_eq_real (s : ℚ) : sentiment_labelR (normalizeR s) = labelOfSum s := by
  have hgt : ((0.05 : ℝ) < normalizeR s) ↔ (0 < s ∧ 15 < 399 * (s * s)) := by
    rw [show (0.05 : ℝ) = 1 / 20 by norm_num]
    exact normalizeR_gt_iff s
  have hlt : (normalizeR s < -(0.05 : ℝ)) ↔ (s < 0 ∧ 15 < 399 * (s * s)) := by
    have hr : normalizeR s = -normalizeR (-s) := by rw [normalizeR_neg]; ring
    rw [hr, show (-(0.05 : ℝ)) = -(1 / 20) by norm_num, neg_lt_neg_iff, normalizeR_gt_iff,
      show -s * -s = s * s by ring, neg_pos]
  unfold sentiment_labelR labelOfSum
  by_cases h1 : 0 < s ∧ 15 < 399 * (s * s)
  · rw [if_pos (hgt.2 h1), if_pos h1]
  · rw [if_neg (fun hh => h1 (hgt.1 hh)), if_neg h1]
    by_cases h2 : s < 0 ∧ 15 < 399 * (s * s)
    · rw [if_pos (hlt.2 h2), if_pos h2]
    · rw [if_neg (fun hh => h2 (hlt.1 hh)), if_neg h2]

/-!
## Claim C6: URL tokens are removed in full
-/

theorem urlRest_cons4 (c1 c2 c3 c4 : Char) (tl : List Char) :
    urlRest (c1 :: c2 :: c3 :: c4 :: tl)
      = if (c1 == 'h' && c2 == 't' && c3 == 't' && c4 == 'p') = true then
          match tl with
          | [] => none
          | d :: tl2 => if isPySpace d = true then none else some ((d :: tl2).dropWhile nonsp)
        else if (c1 == 'w' && c2 == 'w' && c3 == 'w') = true then
          if isPySpace c4 = true then none else some ((c4 :: tl).dropWhile nonsp)
        else none := rfl

theorem dropWhile_nonsp_append_space (u b : List Char) :
    (u ++ ' ' :: b).dropWhile nonsp = u.dropWhile nonsp ++ ' ' :: b := by
  induction u with
  | nil => simp [List.dropWhile_cons, nonsp, isPySpace]
  | cons c u2 ih =>
    by_cases hc : nonsp c = true
    · simpa [List.dropWhile_cons, hc] using ih
    · simp [List.dropWhile_cons, hc]

theorem urlRest_append (a b : List Char) :
    urlRest (a ++ ' ' :: b) = Option.map (fun r => r ++ ' ' :: b) (urlRest a) := by
  match a with
  | [] =>
    show urlRest (' ' :: b) = none
    match b with
    | [] => rfl
    | [b1] => rfl
    | [b1, b2] => rfl
    | b1 :: b2 :: b3 :: rest =>
      rw [urlRest_cons4]
      simp [show (' ' == 'h') = false from rfl, show (' ' == 'w') = false from rfl]
  | [c1] =>
    show urlRest (c1 :: ' ' :: b) = none
    match b with
    | [] => rfl
    | [b1] => rfl
    | b1 :: b2 :: rest =>
      rw [urlRest_cons4]
      simp [show (' ' == 't') = false from rfl, show (' ' == 'w') = false from rfl]
  | [c1, c2] =>
    show urlRest (c1 :: c2 :: ' ' :: b) = none
    match b with
    | [] => rfl
    | b1 :: rest =>
      rw [urlRest_cons4]
      simp [show (' ' == 't') = false from rfl, show (' ' == 'w') = false from rfl]
  | [c1, c2, c3] =>
    show urlRest (c1 :: c2 :: c3 :: ' ' :: b) = none
    rw [urlRest_cons4]
    simp [show (' ' == 'p') = false from rfl, show isPySpace ' ' = true from rfl]
  | c1 :: c2 :: c3 :: c4 :: tl =>
    show urlRest (c1 :: c2 :: c3 :: c4 :: (tl ++ ' ' :: b))
      = Option.map (fun r => r ++ ' ' :: b) (urlRest (c1 :: c2 :: c3 :: c4 :: tl))
    rw [urlRest_cons4, urlRest_cons4]
    split_ifs with h1 h2 h3
    · match tl with
      | [] => rfl
      | d :: tl2 =>
        show (if isPySpace d = true then none
              else some ((d :: (tl2 ++ ' ' :: b)).dropWhile nonsp))
          = Option.map (fun r => r ++ ' ' :: b)
              (if isPySpace d = true then none else some ((d :: tl2).dropWhile nonsp))
        by_cases hd : isPySpace d = true
        · rw [if_pos hd, if_pos hd]
          rfl
        · rw [if_neg hd, if_neg hd]
          rw [show d :: (tl2 ++ ' ' :: b) = (d :: tl2) ++ ' ' :: b from rfl,
            dropWhile_nonsp_append_space]
          rfl
    · rfl
    · rw [show c4 :: (tl ++ ' ' :: b) = (c4 :: tl) ++ ' ' :: b from rfl,
        dropWhile_nonsp_append_space]
      rfl
    · rfl

theorem urlRest_space (b : List Char) : urlRest (' ' :: b) = none := by
  have h := urlRest_append [] b
  simpa using h

theorem removeUrls_space (b : List Char) : removeUrls (' ' :: b) = ' ' :: removeUrls b :=
  removeUrls_cons_none (urlRest_space b)

theorem removeUrls_append_aux :
    ∀ (n : Nat) (a b : List Char), a.length ≤ n →
      removeUrls (a ++ ' ' :: b) = removeUrls a ++ ' ' :: removeUrls b := by
  intro n
  induction n with
  | zero =>
    intro a b ha
    obtain rfl : a = [] := List.eq_nil_of_length_eq_zero (Nat.le_zero.1 ha)
    rw [List.nil_append, removeUrls_nil, List.nil_append]
    exact removeUrls_space b
  | succ n ih =>
    intro a b ha
    match a with
    | [] =>
      rw [List.nil_append, removeUrls_nil, List.nil_append]
      exact removeUrls_space b
    | c :: a2 =>
      have happ := urlRest_append (c :: a2) b
      cases hu : urlRest (c :: a2) with
      | some r =>
        rw [hu] at happ
        rw [show (c :: a2) ++ ' ' :: b = c :: (a2 ++ ' ' :: b) from rfl] at happ ⊢
        have happ2 : urlRest (c :: (a2 ++ ' ' :: b)) = some (r ++ ' ' :: b) := happ
        rw [removeUrls_cons_some happ2, removeUrls_cons_some hu]
        have hr : r.length ≤ n := by
          have := urlRest_length hu
          simp only [List.length_cons] at this ha
          omega
        exact ih r b hr
      | none =>
        rw [hu] at happ
        rw [show (c :: a2) ++ ' ' :: b = c :: (a2 ++ ' ' :: b) from rfl] at happ ⊢
        have happ2 : urlRest (c :: (a2 ++ ' ' :: b)) = none := happ
        rw [removeUrls_cons_none happ2, removeUrls_cons_none hu]
        have ha2 : a2.length ≤ n := by
          simp only [List.length_cons] at ha
          omega
        rw [ih a2 b ha2]
        rfl

theorem removeUrls_append (a b : List Char) :
    removeUrls (a ++ ' ' :: b) = removeUrls a ++ ' ' :: removeUrls b :=
  removeUrls_append_aux a.length a b (Nat.le_refl _)

theorem urlToken_rest {t : List Char} (h : isUrlToken t = true) : urlRest t = some [] := by
  unfold isUrlToken at h
  simp only [Bool.and_eq_true, Option.isSome_iff_exists] at h
  obtain ⟨hall, r, hr⟩ := h
  suffices hsuff : r = [] by rw [hr, hsuff]
  match t, hall, hr with
  | [], hall, hr =>
    exact Option.noConfusion ((show urlRest [] = none from rfl).symm.trans hr)
  | [c1], hall, hr =>
    exact Option.noConfusion ((show urlRest [c1] = none from rfl).symm.trans hr)
  | [c1, c2], hall, hr =>
    exact Option.noConfusion ((show urlRest [c1, c2] = none from rfl).symm.trans hr)
  | [c1, c2, c3], hall, hr =>
    exact Option.noConfusion ((show urlRest [c1, c2, c3] = none from rfl).symm.trans hr)
  | c1 :: c2 :: c3 :: c4 :: tl, hall, hr =>
    rw [urlRest_cons4] at hr
    have hallm : ∀ x ∈ c1 :: c2 :: c3 :: c4 :: tl, nonsp x = true := List.all_eq_true.1 hall
    split_ifs at hr with h1 h2 h3
    · match tl, hallm, hr with
      | [], hallm, hr =>
        exact Option.noConfusion (show (none : Option (List Char)) = some r from hr)
      | d :: tl2, hallm, hr =>
        have hr2 : (if isPySpace d = true then none
            else some ((d :: tl2).dropWhile nonsp)) = some r := hr
        split_ifs at hr2 with hd
        obtain rfl : (d :: tl2).dropWhile nonsp = r := by injection hr2
        rw [List.dropWhile_eq_nil_iff]
        intro x hx
        refine hallm x ?_
        simp only [List.mem_cons] at hx ⊢
        tauto
    · obtain rfl : (c4 :: tl).dropWhile nonsp = r := by injection hr
      rw [List.dropWhile_eq_nil_iff]
      intro x hx
      refine hallm x ?_
      simp only [List.mem_cons] at hx ⊢
      tauto

/-- C6 (counterexample): the input "http http://x" contains a well-formed
URL token ("http://x"), yet its normalized output is "http" — the bare
leading token "http" has no `\S+` continuation, so the regex leaves it
alone and it survives into the output.  The claimed universal absence of
"http"/"www" substrings is therefore false. -/
theorem C6_counterexample :
    clean_tweet "http http://x" = "http" ∧
    isUrlToken "http://x".data = true ∧
    hasSubstr "http".data (clean_tweet "http http://x").data = true :=
  ⟨by decide, by decide, by decide⟩

/-- C6 (amended): the URL-removal step deletes any whitespace-delimited
URL token (a non-space run beginning with `http` or `www` plus at least
one further non-space character) in its entirety: cleaning a text
containing such a token gives exactly the cleaning of the text with the
token deleted.  The original claim's stronger conclusion — that the
normalized output never contains "http"/"www" substrings — fails (see the
counterexample): a bare trailing "http"/"www" token, or a match
manufactured by case folding or punctuation stripping, survives. -/
theorem C6_url_token_removed (a t b : List Char) (h : isUrlToken t = true) :
    cleanChars (a ++ ' ' :: (t ++ ' ' :: b)) = cleanChars (a ++ ' ' :: ' ' :: b) := by
  have hrem : removeUrls (a ++ ' ' :: (t ++ ' ' :: b)) = removeUrls (a ++ ' ' :: ' ' :: b) := by
    rw [removeUrls_append a (t ++ ' ' :: b), removeUrls_append a (' ' :: b)]
    have h2 := urlToken_rest h
    have h3 : urlRest (t ++ ' ' :: b) = some (' ' :: b) := by
      rw [urlRest_append t b, h2]
      rfl
    cases t with
    | nil => exact Option.noConfusion ((show urlRest [] = none from rfl).symm.trans h2)
    | cons c rest =>
      rw [show (c :: rest) ++ ' ' :: b = c :: (rest ++ ' ' :: b) from rfl] at h3
      rw [show (c :: rest) ++ ' ' :: b = c :: (rest ++ ' ' :: b) from rfl,
        removeUrls_cons_some h3]
  unfold cleanChars
  rw [hrem]

theorem C6_witness :
    isUrlToken "http://x.co".data = true ∧
    cleanChars ("see".data ++ ' ' :: ("http://x.co".data ++ ' ' :: "ok".data))
      = cleanChars ("see".data ++ ' ' :: ' ' :: "ok".data) :=
  ⟨by decide, C6_url_token_removed "see".data "http://x.co".data "ok".data (by decide)⟩

/-!
## Claims C8 and C9: aggregation
-/

theorem sumCounts_bump (v : String) (acc : List (String × Nat)) :
    sumCounts (bump v acc) = sumCounts acc + 1 := by
  induction acc with
  | nil => rfl
  | cons q rest ih =>
    obtain ⟨w, k⟩ := q
    unfold bump
    split
    · simp [sumCounts]
      omega
    · simp only [sumCounts, List.map_cons, List.sum_cons] at ih ⊢
      omega

theorem sumCounts_tallyGo (l : List String) :
    ∀ acc, sumCounts (tallyGo acc l) = sumCounts acc + l.length := by
  induction l with
  | nil => intro acc; simp [tallyGo]
  | cons v rest ih =>
    intro acc
    unfold tallyGo
    rw [ih (bump v acc), sumCounts_bump]
    simp only [List.length_cons]
    omega

theorem sumCounts_tally (l : List String) : sumCounts (tally l) = l.length := by
  unfold tally
  rw [sumCounts_tallyGo]
  simp [sumCounts]

theorem keys_bump (v : String) (acc : List (String × Nat)) :
    (bump v acc).map Prod.fst
      = if v ∈ acc.map Prod.fst then acc.map Prod.fst else acc.map Prod.fst ++ [v] := by
  induction acc with
  | nil => rfl
  | cons q rest ih =>
    obtain ⟨w, k⟩ := q
    unfold bump
    by_cases hw : w = v
    · subst hw
      rw [if_pos rfl]
      simp [List.mem_cons]
    · rw [if_neg hw]
      simp only [List.map_cons, List.mem_cons]
      rw [ih]
      by_cases hv : v ∈ rest.map Prod.fst
      · rw [if_pos hv, if_pos (Or.inr hv)]
      · rw [if_neg hv, if_neg (by rintro (h | h); exact hw h.symm; exact hv h)]
        rfl

theorem mem_keys_bump {x v : String} {acc : List (String × Nat)} :
    x ∈ (bump v acc).map Prod.fst ↔ x ∈ acc.map Prod.fst ∨ x = v := by
  rw [keys_bump]
  by_cases hv : v ∈ acc.map Prod.fst
  · rw [if_pos hv]
    constructor
    · exact Or.inl
    · rintro (h | rfl)
      · exact h
      · exact hv
  · rw [if_neg hv]
    simp

theorem nodup_keys_bump {v : String} {acc : List (String × Nat)}
    (h : (acc.map Prod.fst).Nodup) : ((bump v acc).map Prod.fst).Nodup := by
  rw [keys_bump]
  by_cases hv : v ∈ acc.map Prod.fst
  · rw [if_pos hv]
    exact h
  · rw [if_neg hv]
    rw [List.nodup_append]
    refine ⟨h, List.nodup_singleton v, ?_⟩
    intro a ha hb
    rw [List.mem_singleton] at hb
    subst hb
    exact hv ha

theorem nodup_keys_tallyGo (l : List String) :
    ∀ acc, (acc.map Prod.fst).Nodup → ((tallyGo acc l).map Prod.fst).Nodup := by
  induction l with
  | nil => intro acc h; exact h
  | cons v rest ih =>
    intro acc h
    exact ih (bump v acc) (nodup_keys_bump h)

theorem mem_keys_tallyGo (l : List String) :
    ∀ acc x, x ∈ (tallyGo acc l).map Prod.fst ↔ x ∈ acc.map Prod.fst ∨ x ∈ l := by
  induction l with
  | nil => intro acc x; simp [tallyGo]
  | cons v rest ih =>
    intro acc x
    unfold tallyGo
    rw [ih (bump v acc) x, mem_keys_bump]
    simp only [List.mem_cons]
    tauto

theorem length_tally_eq_dedup (l : List String) : (tally l).length = l.dedup.length := by
  have h1 : ((tally l).map Prod.fst).Nodup := nodup_keys_tallyGo l [] (by simp)
  have h2 : ∀ x, x ∈ (tally l).map Prod.fst ↔ x ∈ l.dedup := by
    intro x
    rw [List.mem_dedup]
    have := mem_keys_tallyGo l [] x
    simpa [tally] using this
  have hperm : List.Perm ((tally l).map Prod.fst) l.dedup :=
    (List.perm_ext_iff_of_nodup h1 (List.nodup_dedup l)).2 h2
  have := hperm.length_eq
  simpa using this

theorem mem_insertDesc {x p : String × Nat} {r : List (String × Nat)} :
    x ∈ insertDesc p r ↔ x = p ∨ x ∈ r := by
  induction r with
  | nil => simp [insertDesc]
  | cons q rest ih =>
    unfold insertDesc
    split
    · simp only [List.mem_cons, ih]
      tauto
    · simp [List.mem_cons]

theorem sorted_insertDesc (p : String × Nat) (r : List (String × Nat))
    (h : List.Pairwise (fun a b => b.2 ≤ a.2) r) :
    List.Pairwise (fun a b => b.2 ≤ a.2) (insertDesc p r) := by
  induction r with
  | nil => simp [insertDesc]
  | cons q rest ih =>
    rw [List.pairwise_cons] at h
    obtain ⟨hq, hrest⟩ := h
    unfold insertDesc
    split
    next hlt =>
      rw [List.pairwise_cons]
      constructor
      · intro x hx
        rcases mem_insertDesc.1 hx with rfl | hx2
        · exact Nat.le_of_lt hlt
        · exact hq x hx2
      · exact ih hrest
    next hge =>
      rw [List.pairwise_cons]
      constructor
      · intro x hx
        rcases List.mem_cons.1 hx with rfl | hx2
        · omega
        · exact Nat.le_trans (hq x hx2) (by omega)
      · exact List.Pairwise.cons hq hrest

theorem sorted_sortDesc (r : List (String × Nat)) :
    List.Pairwise (fun a b => b.2 ≤ a.2) (sortDesc r) := by
  induction r with
  | nil => simp [sortDesc]
  | cons p rest ih => exact sorted_insertDesc p (sortDesc rest) ih

theorem sumCounts_insertDesc (p : String × Nat) (r : List (String × Nat)) :
    sumCounts (insertDesc p r) = p.2 + sumCounts r := by
  induction r with
  | nil => simp [insertDesc, sumCounts]
  | cons q rest ih =>
    unfold insertDesc
    split
    · simp only [sumCounts, List.map_cons, List.sum_cons] at ih ⊢
      omega
    · simp [sumCounts]

theorem length_insertDesc (p : String × Nat) (r : List (String × Nat)) :
    (insertDesc p r).length = r.length + 1 := by
  induction r with
  | nil => rfl
  | cons q rest ih =>
    unfold insertDesc
    split
    · simp only [List.length_cons, ih]
    · simp

theorem sumCounts_sortDesc (r : List (String × Nat)) : sumCounts (sortDesc r) = sumCounts r := by
  induction r with
  | nil => rfl
  | cons p rest ih =>
    unfold sortDesc
    rw [sumCounts_insertDesc]
    simp only [sumCounts, List.map_cons, List.sum_cons] at ih ⊢
    omega

theorem length_sortDesc (r : List (String × Nat)) : (sortDesc r).length = r.length := by
  induction r with
  | nil => rfl
  | cons p rest ih =>
    unfold sortDesc
    rw [length_insertDesc, ih]
    rfl

theorem sumCounts_take_le (n : Nat) (r : List (String × Nat)) :
    sumCounts (r.take n) ≤ sumCounts r := by
  unfold sumCounts
  rw [List.map_take]
  have h := List.take_append_drop n (r.map (fun p => p.2))
  have h2 := congrArg List.sum h
  rw [List.sum_append] at h2
  omega

theorem length_filterMap_all_some {col : List (Option String)}
    (h : ∀ x ∈ col, x ≠ none) : (col.filterMap id).length = col.length := by
  induction col with
  | nil => rfl
  | cons x rest ih =>
    obtain ⟨a, rfl⟩ := Option.ne_none_iff_exists'.1 (h x (List.mem_cons_self x rest))
    rw [show (some a :: rest).filterMap id = a :: rest.filterMap id from rfl]
    simp only [List.length_cons]
    rw [ih (fun y hy => h y (List.mem_cons_of_mem _ hy))]

/-- C8 (counterexample): with two distinct values and `top_n = 1`, the
truncated result's counts sum to 1 while the record count is 2 and no
value is missing — the claim's "equality when the field has no missing
values" fails under top-N truncation. -/
theorem C8_counterexample :
    ([some "a", some "b"].all (fun x => x.isSome)) = true ∧
    sumCounts ((value_counts [some "a", some "b"]).take 1) = 1 ∧
    sumCounts ((value_counts [some "a", some "b"]).take 1) ≠ [some "a", some "b"].length :=
  ⟨by decide, by decide, by decide⟩

/-- C8 (amended): for every column and `top_n`, the aggregation result
`value_counts(col).head(top_n)` is sorted descending by count, has length
at most `min top_n (number of distinct non-null values)`, and its counts
sum to at most the record count — with equality when the field has no
missing values AND no truncation occurs (`top_n` at least the number of
distinct values).  Equality under truncation, as originally claimed,
fails. -/
theorem C8_aggregate_props (col : List (Option String)) (top_n : Nat) :
    List.Pairwise (fun p q => q.2 ≤ p.2) ((value_counts col).take top_n) ∧
    ((value_counts col).take top_n).length ≤ min top_n (col.filterMap id).dedup.length ∧
    sumCounts ((value_counts col).take top_n) ≤ col.length ∧
    ((∀ x ∈ col, x ≠ none) → (value_counts col).length ≤ top_n →
      sumCounts ((value_counts col).take top_n) = col.length) := by
  refine ⟨?_, ?_, ?_, ?_⟩
  · exact (sorted_sortDesc (tally (col.filterMap id))).sublist (List.take_sublist _ _)
  · rw [List.length_take]
    unfold value_counts
    rw [length_sortDesc, length_tally_eq_dedup]
  · calc sumCounts ((value_counts col).take top_n)
        ≤ sumCounts (value_counts col) := sumCounts_take_le _ _
      _ = (col.filterMap id).length := by
          unfold value_counts
          rw [sumCounts_sortDesc, sumCounts_tally]
      _ ≤ col.length := List.length_filterMap_le id col
  · intro hall hlen
    rw [List.take_of_length_le hlen]
    unfold value_counts
    rw [sumCounts_sortDesc, sumCounts_tally, length_filterMap_all_some hall]

theorem C8_witness :
    sumCounts ((value_counts [some "a", some "b"]).take 5) = [some "a", some "b"].length :=
  (C8_aggregate_props [some "a", some "b"] 5).2.2.2 (by decide) (by decide)

/-- C9 (counterexample): aggregating over a field that is absent from the
record set raises (pandas `data[column]` raises `KeyError` for a missing
column) instead of returning an empty result, so the never-raises half of
the claim fails for absent fields. -/
theorem C9_counterexample :
    visualize_distribution [("content", [some "x"])] "language" 10
      = Except.error "KeyError" := rfl

/-- C9 (amended): aggregating over an empty record set, or over a present
column whose cells are all null, returns the empty result without error;
aggregating over a column absent from the record set's schema raises a
`KeyError` — the "never raises" guarantee holds only when the column
exists. -/
theorem C9_aggregate_empty (cols : List (String × List (Option String)))
    (column : String) (top_n : Nat) :
    (getColumn cols column = some [] →
      visualize_distribution cols column top_n = Except.ok []) ∧
    (∀ col, getColumn cols column = some col → (∀ x ∈ col, x = none) →
      visualize_distribution cols column top_n = Except.ok []) ∧
    (getColumn cols column = none →
      visualize_distribution cols column top_n = Except.error "KeyError") := by
  refine ⟨?_, ?_, ?_⟩
  · intro h
    unfold visualize_distribution
    rw [h]
    show Except.ok ((value_counts []).take top_n) = Except.ok []
    rw [show value_counts [] = [] from rfl, List.take_nil]
  · intro col h hall
    unfold visualize_distribution
    rw [h]
    have hfm : col.filterMap id = [] := List.filterMap_eq_nil_iff.2 hall
    show Except.ok ((sortDesc (tally (col.filterMap id))).take top_n) = Except.ok []
    rw [hfm, show sortDesc (tally []) = [] from rfl, List.take_nil]
  · intro h
    unfold visualize_distribution
    rw [h]

theorem C9_witness : visualize_distribution [("language", [])] "language" 10 = Except.ok [] :=
  (C9_aggregate_empty [("language", [])] "language" 10).1 rfl
